import Mathlib

/-!
Verification development for the streaming chat client of the
`vscode_llm_test_extension` repository.

The component under study is the incremental chunk decoder implemented in
`OllamaLanguageModelProvider.chat` (`src/ollamaLanguageModelProvider.ts`) and
`OllamaService.chat` (`src/ollamaService.ts`, two revisions in the tree), plus
the error mapping of the transport client and the streaming loop of
`VSCodeLanguageModelProvider.chat`.

Strings are modelled as `List Char`.  JavaScript's `JSON.parse` and the
property accesses performed by the decoder are modelled by the `Json` value
type together with a total (fuelled) parser and JS-faithful truthiness,
property lookup and indexing.  Numbers are kept as their source lexeme; only
their truthiness (zero / non-zero mantissa) is interpreted, which is exact for
every record shape the decoder inspects (the decoder only ever reads string
content, so the numeric-to-string coercion of exotic literals is irrelevant
to the properties proved here).
-/

/-- JSON values as produced by `JSON.parse`.  Object fields are kept in source
order; duplicate keys are resolved by `jsGet` taking the last occurrence, as
`JSON.parse` does. -/
inductive Json where
  | null : Json
  | bool : Bool → Json
  | num : List Char → Json
  | str : List Char → Json
  | arr : List Json → Json
  | obj : List (List Char × Json) → Json
deriving Repr

/-- Whitespace stripped by JavaScript's `String.prototype.trim`
(ASCII white space plus NBSP and BOM, the forms that can occur here). -/
def jsWs (c : Char) : Bool :=
  c = ' ' ∨ c = '\t' ∨ c = '\n' ∨ c = '\r' ∨ c = '\x0b' ∨ c = '\x0c' ∨
  c = '\xa0' ∨ c = '﻿'

/-- `s.trim()`. -/
def jsTrim (s : List Char) : List Char :=
  ((s.dropWhile jsWs).reverse.dropWhile jsWs).reverse

/-- Mantissa of a JSON number lexeme is all zeros (JS value `0` or `-0`,
which are the falsy numbers). -/
def numIsZero (lex : List Char) : Bool :=
  ((lex.takeWhile (fun c => c != 'e' && c != 'E')).filter Char.isDigit).all
    (fun c => c = '0')

/-- JavaScript truthiness of a JSON value. -/
def jsTruthy : Json → Bool
  | Json.null => false
  | Json.bool b => b
  | Json.num lex => ! numIsZero lex
  | Json.str s => ! s.isEmpty
  | Json.arr _ => true
  | Json.obj _ => true

/-- Last binding of a key in an object's field list (`JSON.parse` keeps the
last duplicate). -/
def lookupLast (k : List Char) : List (List Char × Json) → Option Json
  | [] => none
  | kv :: rest =>
    match lookupLast k rest with
    | some v => some v
    | none => if kv.1 = k then some kv.2 else none

/-- `v.key` property access; `none` plays the role of `undefined`. -/
def jsGet (v : Json) (k : List Char) : Option Json :=
  match v with
  | Json.obj fields => lookupLast k fields
  | _ => none

/-- `v[0]`: array head, first character of a string, or the `"0"` property of
an object; `undefined` otherwise. -/
def jsIndex0 : Json → Option Json
  | Json.arr (x :: _) => some x
  | Json.str (c :: _) => some (Json.str [c])
  | Json.obj fields => lookupLast ['0'] fields
  | _ => none

/-- Truthiness of a possibly-`undefined` value. -/
def truthyO : Option Json → Bool
  | some v => jsTruthy v
  | none => false

/-- `a && a.key`-style guarded access: the value of `o.key` when `o` is
defined and truthy, `undefined` otherwise. -/
def andGet (o : Option Json) (k : List Char) : Option Json :=
  match o with
  | some v => if jsTruthy v then jsGet v k else none
  | none => none

/-- Optional chaining `o?.key`: `undefined` when `o` is `null`/`undefined`. -/
def optChain (o : Option Json) (k : List Char) : Option Json :=
  match o with
  | none => none
  | some Json.null => none
  | some v => jsGet v k

mutual
/-- `String(v)` coercion as used by `fullResponse += content`.  Arrays join
their elements with commas (`null` joining to nothing), objects print as
`[object Object]`; numbers are rendered by their lexeme. -/
def jsToString : Json → List Char
  | Json.null => "null".data
  | Json.bool true => "true".data
  | Json.bool false => "false".data
  | Json.num lex => lex
  | Json.str s => s
  | Json.arr xs => arrJoin xs
  | Json.obj _ => "[object Object]".data

def arrJoin : List Json → List Char
  | [] => []
  | [Json.null] => []
  | [x] => jsToString x
  | Json.null :: y :: rest => ',' :: arrJoin (y :: rest)
  | x :: y :: rest => jsToString x ++ ',' :: arrJoin (y :: rest)
end

/-! ### A total model of `JSON.parse` -/

/-- JSON (RFC 8259) insignificant whitespace. -/
def jsonWs (c : Char) : Bool :=
  c = ' ' ∨ c = '\t' ∨ c = '\n' ∨ c = '\r'

def skipWs (s : List Char) : List Char := s.dropWhile jsonWs

def hexVal (c : Char) : Option Nat :=
  if '0' ≤ c ∧ c ≤ '9' then some (c.toNat - '0'.toNat)
  else if 'a' ≤ c ∧ c ≤ 'f' then some (c.toNat - 'a'.toNat + 10)
  else if 'A' ≤ c ∧ c ≤ 'F' then some (c.toNat - 'A'.toNat + 10)
  else none

def escChar (c : Char) : Option Char :=
  if c = '"' then some '"'
  else if c = '\\' then some '\\'
  else if c = '/' then some '/'
  else if c = 'b' then some '\x08'
  else if c = 'f' then some '\x0c'
  else if c = 'n' then some '\n'
  else if c = 'r' then some '\r'
  else if c = 't' then some '\t'
  else none

/-- String body after the opening quote: returns the decoded content and the
input following the closing quote. -/
def pStr : Nat → List Char → Option (List Char × List Char)
  | 0, _ => none
  | _, [] => none
  | fuel + 1, c :: r =>
    if c = '"' then some ([], r)
    else if c = '\\' then
      match r with
      | 'u' :: h1 :: h2 :: h3 :: h4 :: r2 =>
        match hexVal h1, hexVal h2, hexVal h3, hexVal h4 with
        | some a, some b, some c2, some d =>
          match pStr fuel r2 with
          | some (cs, rest) =>
            some (Char.ofNat (((a * 16 + b) * 16 + c2) * 16 + d) :: cs, rest)
          | none => none
        | _, _, _, _ => none
      | e :: r2 =>
        match escChar e with
        | some ec =>
          match pStr fuel r2 with
          | some (cs, rest) => some (ec :: cs, rest)
          | none => none
        | none => none
      | [] => none
    else if c.toNat < 32 then none
    else
      match pStr fuel r with
      | some (cs, rest) => some (c :: cs, rest)
      | none => none

/-- Exponent part of a number lexeme (the mantissa lexeme is `m`). -/
def pNumExp (m : List Char) (s : List Char) : Option (Json × List Char) :=
  match s with
  | [] => some (Json.num m, [])
  | c :: r =>
    if c = 'e' ∨ c = 'E' then
      match r with
      | c2 :: r2 =>
        if c2 = '+' ∨ c2 = '-' then
          match r2.span Char.isDigit with
          | (ds, rest) =>
            if ds.isEmpty then none else some (Json.num (m ++ c :: c2 :: ds), rest)
        else
          match r.span Char.isDigit with
          | (ds, rest) =>
            if ds.isEmpty then none else some (Json.num (m ++ c :: ds), rest)
      | [] => none
    else some (Json.num m, s)

/-- Fraction part of a number lexeme. -/
def pNumFrac (m : List Char) (s : List Char) : Option (Json × List Char) :=
  match s with
  | '.' :: r =>
    match r.span Char.isDigit with
    | (ds, rest) =>
      if ds.isEmpty then none else pNumExp (m ++ '.' :: ds) rest
  | _ => pNumExp m s

/-- JSON number, starting at its first character. -/
def pNum (s : List Char) : Option (Json × List Char) :=
  match s with
  | '-' :: s1 =>
    match s1 with
    | '0' :: r => pNumFrac ['-', '0'] r
    | c :: r =>
      if c.isDigit then
        match r.span Char.isDigit with
        | (ds, rest) => pNumFrac ('-' :: c :: ds) rest
      else none
    | [] => none
  | '0' :: r => pNumFrac ['0'] r
  | c :: r =>
    if c.isDigit then
      match r.span Char.isDigit with
      | (ds, rest) => pNumFrac (c :: ds) rest
    else none
  | [] => none

mutual
/-- A JSON value (leading whitespace allowed); fuelled recursion. -/
def pVal : Nat → List Char → Option (Json × List Char)
  | 0, _ => none
  | fuel + 1, s =>
    match skipWs s with
    | [] => none
    | c :: r =>
      if c = '\x7b' then
        match skipWs r with
        | '\x7d' :: r2 => some (Json.obj [], r2)
        | _ =>
          match pMembers fuel (skipWs r) with
          | some (ms, rest) => some (Json.obj ms, rest)
          | none => none
      else if c = '[' then
        match skipWs r with
        | ']' :: r2 => some (Json.arr [], r2)
        | _ =>
          match pElems fuel (skipWs r) with
          | some (xs, rest) => some (Json.arr xs, rest)
          | none => none
      else if c = '"' then
        match pStr (r.length + 1) r with
        | some (cs, rest) => some (Json.str cs, rest)
        | none => none
      else if c = 't' then
        match r with
        | 'r' :: 'u' :: 'e' :: r2 => some (Json.bool true, r2)
        | _ => none
      else if c = 'f' then
        match r with
        | 'a' :: 'l' :: 's' :: 'e' :: r2 => some (Json.bool false, r2)
        | _ => none
      else if c = 'n' then
        match r with
        | 'u' :: 'l' :: 'l' :: r2 => some (Json.null, r2)
        | _ => none
      else pNum (c :: r)

/-- Object members, positioned at the opening quote of a key. -/
def pMembers : Nat → List Char → Option (List (List Char × Json) × List Char)
  | 0, _ => none
  | fuel + 1, s =>
    match s with
    | '"' :: r =>
      match pStr (r.length + 1) r with
      | some (k, r1) =>
        match skipWs r1 with
        | ':' :: r2 =>
          match pVal fuel r2 with
          | some (v, r3) =>
            match skipWs r3 with
            | ',' :: r4 =>
              match pMembers fuel (skipWs r4) with
              | some (ms, rest) => some ((k, v) :: ms, rest)
              | none => none
            | '\x7d' :: r4 => some ([(k, v)], r4)
            | _ => none
          | none => none
        | _ => none
      | none => none
    | _ => none

/-- Array elements, positioned at the first element. -/
def pElems : Nat → List Char → Option (List Json × List Char)
  | 0, _ => none
  | fuel + 1, s =>
    match pVal fuel s with
    | some (v, r) =>
      match skipWs r with
      | ',' :: r2 =>
        match pElems fuel r2 with
        | some (xs, rest) => some (v :: xs, rest)
        | none => none
      | ']' :: r2 => some ([v], r2)
      | _ => none
    | none => none
end

/-- `JSON.parse`: a whole JSON text, rejecting trailing garbage. -/
def jsonParse (s : List Char) : Option Json :=
  match pVal (2 * s.length + 16) s with
  | some (v, rest) => if (skipWs rest).isEmpty then some v else none
  | none => none

/-! ### The decoder state machine

Translated from the `'data'` handler of `OllamaLanguageModelProvider.chat`
(`src/ollamaLanguageModelProvider.ts`, lines 101-173) and of
`OllamaService.chat` (`src/ollamaService.ts`, part_008 revision, lines
108-190).  Their per-record logic is letter-for-letter identical; they differ
only in that the provider checks the cancellation token at the top of the
handler and resolves with `void`, while the service resolves with the
accumulated `fullResponse` string. -/

/-- The distinct settlement sites of the promise created by `chat`:
`resolve()` in the cancellation branch, at the `[DONE]` sentinel, at a
`finish_reason: "stop"` choice, on the `'end'` event; `reject` on the
`'error'` event or (part_008 only) the 2-minute `setTimeout`. -/
inductive Settle where
  | cancelTok : Settle
  | doneSentinel : Settle
  | finishStop : Settle
  | streamEnd : Settle
  | streamError : Settle
  | timeoutRej : Settle
deriving DecidableEq, Repr

/-- Decoder state.  `buffer` and `fullResponse` are the two mutable strings of
the handler closure; `emitted` records every value passed to the
`onStream`/`onChunk` sink in order.  `settled` records which settlement site
fired first (a JS promise settles once; later `resolve`/`reject` calls are
no-ops), and `valueAtSettle`/`emittedAtSettle` capture `fullResponse` and the
emission log at that moment — for the service, `resolve(fullResponse)` makes
`valueAtSettle` the string the `chat` call returns. -/
structure DecSt where
  buffer : List Char
  fullResponse : List Char
  emitted : List Json
  settled : Option Settle
  valueAtSettle : List Char
  emittedAtSettle : List Json
deriving Repr

def initSt : DecSt :=
  { buffer := [], fullResponse := [], emitted := [],
    settled := none, valueAtSettle := [], emittedAtSettle := [] }

/-- First `resolve`/`reject` wins; later settlement attempts are no-ops. -/
def settleWith (st : DecSt) (r : Settle) : DecSt :=
  match st.settled with
  | some _ => st
  | none =>
    { st with settled := some r, valueAtSettle := st.fullResponse,
              emittedAtSettle := st.emitted }

/-- `data: ` — the six-character SSE frame marker tested by
`jsonStr.startsWith('data: ')`. -/
def dataMark : List Char := "data: ".data

/-- The `[DONE]` sentinel. -/
def doneMark : List Char := "[DONE]".data

def choicesKey : List Char := "choices".data
def deltaKey : List Char := "delta".data
def messageKey : List Char := "message".data
def contentKey : List Char := "content".data
def finishKey : List Char := "finish_reason".data
def stopMark : List Char := "stop".data

/-- The record text a trimmed non-empty line is parsed as:
`if (jsonStr.startsWith('data: ')) jsonStr = jsonStr.substring(6).trim();`. -/
def recordText (line : List Char) : List Char :=
  let t := jsTrim line
  if t.take 6 = dataMark then jsTrim (t.drop 6) else t

/-- The `content` selected from the first choice:
`if (choice.delta && choice.delta.content) ... else if (choice.message &&
choice.message.content) ...`, defaulting to the empty string. -/
def extractContent (choice : Json) : Json :=
  let deltaContent := andGet (jsGet choice deltaKey) contentKey
  if truthyO deltaContent then deltaContent.getD Json.null
  else
    let msgContent := andGet (jsGet choice messageKey) contentKey
    if truthyO msgContent then msgContent.getD Json.null else Json.str []

/-- The `data.choices && data.choices[0]` guard of the record loop: the first
choice when both accesses are truthy, `undefined` otherwise. -/
def firstChoice (data : Json) : Option Json :=
  match jsGet data choicesKey with
  | none => none
  | some choices =>
    if jsTruthy choices then
      match jsIndex0 choices with
      | none => none
      | some choice => if jsTruthy choice then some choice else none
    else none

/-- `if (content) { fullResponse += content; onStream(content); }`. -/
def emitContent (content : Json) (st : DecSt) : DecSt :=
  if jsTruthy content then
    { st with fullResponse := st.fullResponse ++ jsToString content,
              emitted := st.emitted ++ [content] }
  else st

/-- One iteration of `for (const line of lines)` in the provider/service
decoder.  The boolean is `true` when the loop body executed `return`,
abandoning the remaining lines of the current fragment. -/
def processLine (line : List Char) (st : DecSt) : DecSt × Bool :=
  if (jsTrim line).isEmpty then (st, false)
  else
    let jsonStr := recordText line
    if jsonStr = doneMark then (settleWith st Settle.doneSentinel, true)
    else
      match jsonParse jsonStr with
      | none => (st, false)
      | some data =>
        match jsGet data choicesKey with
        | none => (st, false)
        | some choices =>
          if jsTruthy choices then
            match jsIndex0 choices with
            | none => (st, false)
            | some choice =>
              if jsTruthy choice then
                let st1 := emitContent (extractContent choice) st
                match jsGet choice finishKey with
                | some (Json.str fr) =>
                  if fr = stopMark then (settleWith st1 Settle.finishStop, true)
                  else (st1, false)
                | some _ => (st1, false)
                | none => (st1, false)
              else (st, false)
          else (st, false)

/-- Whether a line makes the loop `return` (hit `[DONE]` or a
`finish_reason: "stop"` choice); independent of the decoder state. -/
def lineStops (line : List Char) : Bool := (processLine line initSt).2

/-- Pure effect of one record line on the fixed decoders: the value emitted to
the sink, if any, and the settlement site reached, if any.  `processLine` is
exactly the application of this effect (theorem `processLine_char`); the
loop's early `return` fires exactly when a settlement site was reached. -/
def lineEff (line : List Char) : Option Json × Option Settle :=
  if (jsTrim line).isEmpty then (none, none)
  else
    let jsonStr := recordText line
    if jsonStr = doneMark then (none, some Settle.doneSentinel)
    else
      match jsonParse jsonStr with
      | none => (none, none)
      | some data =>
        match jsGet data choicesKey with
        | none => (none, none)
        | some choices =>
          if jsTruthy choices then
            match jsIndex0 choices with
            | none => (none, none)
            | some choice =>
              if jsTruthy choice then
                let co :=
                  if jsTruthy (extractContent choice) then some (extractContent choice)
                  else none
                match jsGet choice finishKey with
                | some (Json.str fr) =>
                  if fr = stopMark then (co, some Settle.finishStop)
                  else (co, none)
                | some _ => (co, none)
                | none => (co, none)
              else (none, none)
          else (none, none)

/-- Apply a line effect: emission first, then settlement, as the loop body
does. -/
def applyEff (e : Option Json × Option Settle) (st : DecSt) : DecSt :=
  let st1 :=
    match e.1 with
    | some c =>
      { st with fullResponse := st.fullResponse ++ jsToString c,
                emitted := st.emitted ++ [c] }
    | none => st
  match e.2 with
  | some r => settleWith st1 r
  | none => st1

/-- The `for (const line of lines)` loop with its early `return`. -/
def runLines (ls : List (List Char)) (st : DecSt) : DecSt :=
  match ls with
  | [] => st
  | l :: rest =>
    match processLine l st with
    | (st1, true) => st1
    | (st1, false) => runLines rest st1

/-- `buffer.split('\n')` followed by `buffer = lines.pop() || ''`: the
complete lines before each newline, and the trailing partial line. -/
def scanLines : List Char → List (List Char) × List Char
  | [] => ([], [])
  | c :: rest =>
    if c = '\n' then ([] :: (scanLines rest).1, (scanLines rest).2)
    else
      match (scanLines rest).1, (scanLines rest).2 with
      | [], r => ([], c :: r)
      | l :: ls, r => ((c :: l) :: ls, r)

/-- One `'data'` event of the fixed decoders (cancellation not requested):
append the fragment to the buffer, split off the complete lines, keep the
partial line, then run the record loop. -/
def feedChunk (st : DecSt) (chunk : List Char) : DecSt :=
  let p := scanLines (st.buffer ++ chunk)
  runLines p.1 { st with buffer := p.2 }

/-- `'\n\n[Stream error: ' + message + ']'` streamed by the provider's
`'error'` handler before rejecting. -/
def streamErrText (msg : List Char) : List Char :=
  "\n\n[Stream error: ".data ++ msg ++ "]".data

/-- Events delivered to the provider's stream handlers. -/
inductive PEvent where
  | dataEv : Bool → List Char → PEvent
  | endEv : PEvent
  | errEv : List Char → PEvent

/-- `OllamaLanguageModelProvider.chat` handler dispatch: the `'data'` handler
first checks `cancellationToken.isCancellationRequested` and resolves without
touching the buffer; `'end'` resolves; `'error'` streams an inline error text
and rejects. -/
def provStep (st : DecSt) : PEvent → DecSt
  | PEvent.dataEv cancelReq chunk =>
    if cancelReq then settleWith st Settle.cancelTok
    else feedChunk st chunk
  | PEvent.endEv => settleWith st Settle.streamEnd
  | PEvent.errEv msg =>
    settleWith
      { st with emitted := st.emitted ++ [Json.str (streamErrText msg)] }
      Settle.streamError

def provRunFrom (st : DecSt) (evs : List PEvent) : DecSt :=
  evs.foldl provStep st

def provRun (evs : List PEvent) : DecSt := provRunFrom initSt evs

/-- Events delivered to the service's stream handlers (part_008): no
cancellation token; `'error'` rejects without emitting; the 2-minute
`setTimeout` rejects. -/
inductive SEvent where
  | dataEv : List Char → SEvent
  | endEv : SEvent
  | errEv : SEvent
  | timeoutEv : SEvent

def svcStep (st : DecSt) : SEvent → DecSt
  | SEvent.dataEv chunk => feedChunk st chunk
  | SEvent.endEv => settleWith st Settle.streamEnd
  | SEvent.errEv => settleWith st Settle.streamError
  | SEvent.timeoutEv => settleWith st Settle.timeoutRej

def svcRun (evs : List SEvent) : DecSt := evs.foldl svcStep initSt

/-- A complete streaming call in which cancellation is never requested and the
transport delivers the given fragments followed by `'end'` — the common
decode loop of both fixed decoders. -/
def chatRun (frags : List (List Char)) : DecSt :=
  settleWith (frags.foldl feedChunk initSt) Settle.streamEnd

/-- `joinNl lines` is the byte stream consisting of the given records, each
terminated by a newline. -/
def joinNl : List (List Char) → List Char
  | [] => []
  | l :: ls => l ++ '\n' :: joinNl ls

/-! ### The legacy service decoder (`src/src/ollamaService.ts`)

This revision splits the buffer with `buffer.split('\\n')` — the literal
two-character sequence backslash-`n`, not a newline — and only reads
`choices[0]?.delta?.content`, with no `finish_reason` handling. -/

/-- `buffer.split('\\n')` + `pop`: split at occurrences of the two-character
sequence `\`,`n`. -/
def legacyScan : List Char → List (List Char) × List Char
  | [] => ([], [])
  | [c] => ([], [c])
  | c1 :: c2 :: rest =>
    if c1 = '\\' ∧ c2 = 'n' then
      ([] :: (legacyScan rest).1, (legacyScan rest).2)
    else
      match (legacyScan (c2 :: rest)).1, (legacyScan (c2 :: rest)).2 with
      | [], r => ([], c1 :: r)
      | l :: ls, r => ((c1 :: l) :: ls, r)

/-- One iteration of the legacy record loop (`src/src/ollamaService.ts`,
lines 121-144): `data.choices && data.choices[0]?.delta?.content` only. -/
def legacyLine (line : List Char) (st : DecSt) : DecSt × Bool :=
  if (jsTrim line).isEmpty then (st, false)
  else
    let jsonStr := recordText line
    if jsonStr = doneMark then (settleWith st Settle.doneSentinel, true)
    else
      match jsonParse jsonStr with
      | none => (st, false)
      | some data =>
        match jsGet data choicesKey with
        | none => (st, false)
        | some choices =>
          if jsTruthy choices then
            let c := optChain (optChain (jsIndex0 choices) deltaKey) contentKey
            if truthyO c then
              ({ st with
                  fullResponse := st.fullResponse ++ jsToString (c.getD Json.null),
                  emitted := st.emitted ++ [c.getD Json.null] }, false)
            else (st, false)
          else (st, false)

def legacyRunLines (ls : List (List Char)) (st : DecSt) : DecSt :=
  match ls with
  | [] => st
  | l :: rest =>
    match legacyLine l st with
    | (st1, true) => st1
    | (st1, false) => legacyRunLines rest st1

/-- One `'data'` event of the legacy decoder. -/
def legacyFeed (st : DecSt) (chunk : List Char) : DecSt :=
  let p := legacyScan (st.buffer ++ chunk)
  legacyRunLines p.1 { st with buffer := p.2 }

/-! ### VS Code language-model provider stream loop

`VSCodeLanguageModelProvider.chat`, lines 106-112: `for await (const fragment
of chatResponse.text) { if (cancellationToken.isCancellationRequested) break;
onStream(fragment); }`.  Each list entry pairs the token state observed at
that iteration with the fragment. -/
def vscodeStreamLoop : List (Bool × List Char) → List (List Char)
  | [] => []
  | (cancelled, frag) :: rest =>
    if cancelled then [] else frag :: vscodeStreamLoop rest

/-! ### Transport failure mapping (`OllamaService.chat` catch block) -/

/-- The shape of the error the catch block inspects: whether
`axios.isAxiosError(error)` holds, `error.code`, and
`error.response?.status`. -/
structure AxiosFailure where
  isAxiosError : Bool
  code : Option (List Char)
  status : Option Nat

def connRefusedMsg : List Char :=
  "Cannot connect to Ollama. Make sure Ollama is running on localhost:11434.".data

def modelNotFoundMsg (model : List Char) : List Char :=
  "Model \"".data ++ model ++
    "\" not found. Please pull the model first using: ollama pull ".data ++ model

def genericChatMsg : List Char :=
  "Failed to chat with the model. Please try again.".data

def econnRefused : List Char := "ECONNREFUSED".data

/-- The message of the `Error` thrown by `OllamaService.chat`'s catch block
(`src/src/ollamaService.ts` lines 160-170, identical in part_008). -/
def chatFailureMessage (model : List Char) (e : AxiosFailure) : List Char :=
  if e.isAxiosError then
    if e.code = some econnRefused then connRefusedMsg
    else if e.status = some 404 then modelNotFoundMsg model
    else genericChatMsg
  else genericChatMsg

/-! ### Concrete material for witnesses and counterexamples -/

/-- `data: {"choices":[{"delta":{"content":"Hel"}}]}` (braces escaped). -/
def helRecord : List Char :=
  "data: \x7b\"choices\":[\x7b\"delta\":\x7b\"content\":\"Hel\"\x7d\x7d]\x7d".data

def loRecord : List Char :=
  "data: \x7b\"choices\":[\x7b\"delta\":\x7b\"content\":\"lo\"\x7d\x7d]\x7d".data

def doneRecord : List Char := "data: [DONE]".data

/-- `data: {"choices":[{"message":{"content":"Hi there"}}]}` — the
full-message record shape (braces escaped). -/
def msgRecord : List Char :=
  "data: \x7b\"choices\":[\x7b\"message\":\x7b\"content\":\"Hi there\"\x7d\x7d]\x7d".data

/-- `JSON.parse` result of the `helRecord` payload. -/
def jsonHel : Json :=
  Json.obj [("choices".data,
    Json.arr [Json.obj [("delta".data,
      Json.obj [("content".data, Json.str "Hel".data)])]])]

/-- A truncated-JSON record: `JSON.parse` fails on its payload. -/
def badRecord : List Char := "data: \x7b\"choices\": truncated".data

/-- A record whose first choice carries content `"A"` together with
`finish_reason: "stop"` (braces escaped). -/
def finRecord : List Char :=
  ("data: \x7b\"choices\":[\x7b\"delta\":\x7b\"content\":\"A\"\x7d," ++
   "\"finish_reason\":\"stop\"\x7d]\x7d").data

/-- `JSON.parse` result of the `finRecord` payload. -/
def jsonFin : Json :=
  Json.obj [("choices".data,
    Json.arr [Json.obj
      [("delta".data, Json.obj [("content".data, Json.str "A".data)]),
       ("finish_reason".data, Json.str "stop".data)]])]

/-- `JSON.parse` result of the `msgRecord` payload. -/
def jsonMsg : Json :=
  Json.obj [("choices".data,
    Json.arr [Json.obj [("message".data,
      Json.obj [("content".data, Json.str "Hi there".data)])]])]

/-- The spec's example body, as the three newline-terminated records. -/
def exLines : List (List Char) := [helRecord, loRecord, doneRecord]

def exBody : List Char := joinNl exLines

/-- A fragmentation of `exBody` that cuts mid-JSON-record and isolates the
final newline. -/
def exFrags : List (List Char) :=
  ["data: \x7b\"cho".data,
   "ices\":[\x7b\"delta\":\x7b\"content\":\"Hel\"\x7d\x7d]\x7d\nda".data,
   "ta: \x7b\"choices\":[\x7b\"delta\":\x7b\"content\":\"lo\"\x7d\x7d]\x7d\ndata: [DONE]".data,
   "\n".data]

/-! ### Lemmas: the line-splitting algebra -/

theorem scanLines_nil : scanLines [] = ([], []) := rfl

theorem scanLines_cons_nl (rest : List Char) :
    scanLines ('\n' :: rest) = ([] :: (scanLines rest).1, (scanLines rest).2) := by
  simp [scanLines]

theorem scanLines_cons_empty {c : Char} {rest : List Char} (h : ¬ c = '\n')
    (h2 : (scanLines rest).1 = []) :
    scanLines (c :: rest) = ([], c :: (scanLines rest).2) := by
  simp [scanLines, h, h2]

theorem scanLines_cons_more {c : Char} {rest l : List Char}
    {ls : List (List Char)} (h : ¬ c = '\n') (h2 : (scanLines rest).1 = l :: ls) :
    scanLines (c :: rest) = ((c :: l) :: ls, (scanLines rest).2) := by
  simp [scanLines, h, h2]

theorem scanLines_noNl {s : List Char} (h : '\n' ∉ s) : scanLines s = ([], s) := by
  induction s with
  | nil => rfl
  | cons c rest ih =>
    have hc : ¬ c = '\n' := fun hh => h (hh ▸ List.mem_cons_self c rest)
    have hr : '\n' ∉ rest := fun hh => h (List.mem_cons_of_mem c hh)
    have := ih hr
    rw [scanLines_cons_empty hc (by rw [this])]
    rw [this]

theorem scanLines_rest_noNl (s : List Char) : '\n' ∉ (scanLines s).2 := by
  induction s with
  | nil => simp [scanLines]
  | cons c rest ih =>
    by_cases hc : c = '\n'
    · subst hc; rw [scanLines_cons_nl]; exact ih
    · rcases h2 : (scanLines rest).1 with _ | ⟨l, ls⟩
      · rw [scanLines_cons_empty hc h2]
        intro hmem
        rcases List.mem_cons.mp hmem with h | h
        · exact hc h.symm
        · exact ih h
      · rw [scanLines_cons_more hc h2]; exact ih

theorem scanLines_append (a b : List Char) :
    scanLines (a ++ b) =
      ((scanLines a).1 ++ (scanLines ((scanLines a).2 ++ b)).1,
       (scanLines ((scanLines a).2 ++ b)).2) := by
  induction a with
  | nil => simp [scanLines]
  | cons c rest ih =>
    by_cases hc : c = '\n'
    · subst hc
      rw [List.cons_append, scanLines_cons_nl, scanLines_cons_nl, ih]
      simp
    · rcases h2 : (scanLines rest).1 with _ | ⟨l, ls⟩
      · rw [List.cons_append]
        rw [scanLines_cons_empty hc h2]
        rcases h3 : (scanLines ((scanLines rest).2 ++ b)).1 with _ | ⟨u, us⟩
        · rw [scanLines_cons_empty hc (by rw [ih, h2, h3]; rfl)]
          rw [List.cons_append, scanLines_cons_empty hc (by rw [h3])]
          rw [ih, h2, h3]
          simp
        · rw [scanLines_cons_more hc (by rw [ih, h2, h3]; rfl)]
          rw [List.cons_append, scanLines_cons_more hc (by rw [h3])]
          rw [ih, h2, h3]
          simp
      · rw [List.cons_append]
        rw [scanLines_cons_more hc (by rw [ih, h2]; rfl)]
        rw [scanLines_cons_more hc h2]
        rw [ih, h2]
        simp

theorem scanLines_line_nil {l : List Char} (h : '\n' ∉ l) :
    scanLines (l ++ ['\n']) = ([l], []) := by
  induction l with
  | nil => rfl
  | cons c cs ih =>
    have hc : ¬ c = '\n' := fun hh => h (hh ▸ List.mem_cons_self c cs)
    have hcs : '\n' ∉ cs := fun hh => h (List.mem_cons_of_mem c hh)
    rw [List.cons_append, scanLines_cons_more hc (by rw [ih hcs])]
    rw [ih hcs]

theorem scanLines_line {l : List Char} (r : List Char) (h : '\n' ∉ l) :
    scanLines (l ++ '\n' :: r) = (l :: (scanLines r).1, (scanLines r).2) := by
  have happ := scanLines_append (l ++ ['\n']) r
  rw [scanLines_line_nil h] at happ
  simpa using happ

theorem scanLines_joinNl {lines : List (List Char)}
    (h : ∀ l ∈ lines, '\n' ∉ l) : scanLines (joinNl lines) = (lines, []) := by
  induction lines with
  | nil => rfl
  | cons l ls ih =>
    have hl : '\n' ∉ l := h l (List.mem_cons_self l ls)
    have hls : ∀ x ∈ ls, '\n' ∉ x := fun x hx => h x (List.mem_cons_of_mem l hx)
    rw [joinNl, scanLines_line _ hl, ih hls]

theorem joinNl_scanLines (s : List Char) :
    joinNl (scanLines s).1 ++ (scanLines s).2 = s := by
  induction s with
  | nil => rfl
  | cons c rest ih =>
    by_cases hc : c = '\n'
    · subst hc
      rw [scanLines_cons_nl]
      simpa [joinNl] using ih
    · rcases h2 : (scanLines rest).1 with _ | ⟨l, ls⟩
      · rw [scanLines_cons_empty hc h2]
        rw [h2] at ih
        simpa [joinNl] using ih
      · rw [scanLines_cons_more hc h2]
        rw [h2] at ih
        simpa [joinNl] using ih

/-! ### Lemmas: the per-line effect -/

theorem processLine_char (line : List Char) (st : DecSt) :
    processLine line st = (applyEff (lineEff line) st, (lineEff line).2.isSome) := by
  dsimp only [processLine, lineEff]
  by_cases h1 : (jsTrim line).isEmpty = true
  · simp [h1, applyEff]
  · by_cases h2 : recordText line = doneMark
    · simp [h1, h2, applyEff]
    · rcases h3 : jsonParse (recordText line) with _ | data
      · simp [h1, h2, applyEff]
      · rcases h4 : jsGet data choicesKey with _ | choices
        · simp [h1, h2, h4, applyEff]
        · by_cases h5 : jsTruthy choices = true
          · rcases h6 : jsIndex0 choices with _ | choice
            · simp [h1, h2, h4, h5, h6, applyEff]
            · by_cases h7 : jsTruthy choice = true
              · rcases h8 : jsGet choice finishKey with _ | fv
                · by_cases hc : jsTruthy (extractContent choice) = true <;>
                    simp [h1, h2, h4, h5, h6, h7, h8, hc, applyEff, emitContent]
                · rcases fv with _ | b | lex | fr | xs | fs
                  · by_cases hc : jsTruthy (extractContent choice) = true <;>
                      simp [h1, h2, h4, h5, h6, h7, h8, hc, applyEff, emitContent]
                  · by_cases hc : jsTruthy (extractContent choice) = true <;>
                      simp [h1, h2, h4, h5, h6, h7, h8, hc, applyEff, emitContent]
                  · by_cases hc : jsTruthy (extractContent choice) = true <;>
                      simp [h1, h2, h4, h5, h6, h7, h8, hc, applyEff, emitContent]
                  · by_cases h9 : fr = stopMark
                    · by_cases hc : jsTruthy (extractContent choice) = true <;>
                        simp [h1, h2, h4, h5, h6, h7, h8, h9, hc, applyEff, emitContent]
                    · by_cases hc : jsTruthy (extractContent choice) = true <;>
                        simp [h1, h2, h4, h5, h6, h7, h8, h9, hc, applyEff, emitContent]
                  · by_cases hc : jsTruthy (extractContent choice) = true <;>
                      simp [h1, h2, h4, h5, h6, h7, h8, hc, applyEff, emitContent]
                  · by_cases hc : jsTruthy (extractContent choice) = true <;>
                      simp [h1, h2, h4, h5, h6, h7, h8, hc, applyEff, emitContent]
              · simp [h1, h2, h4, h5, h6, h7, applyEff]
          · simp [h1, h2, h4, h5, applyEff]

theorem lineStops_eq (line : List Char) :
    lineStops line = (lineEff line).2.isSome := by
  unfold lineStops
  rw [processLine_char]

theorem processLine_snd (line : List Char) (st : DecSt) :
    (processLine line st).2 = lineStops line := by
  rw [processLine_char, lineStops_eq]

theorem settleWith_buffer (st : DecSt) (r : Settle) :
    (settleWith st r).buffer = st.buffer := by
  rcases st with ⟨bf, fr, em, sd, vs, es⟩
  cases sd <;> rfl

theorem settleWith_emitted (st : DecSt) (r : Settle) :
    (settleWith st r).emitted = st.emitted := by
  rcases st with ⟨bf, fr, em, sd, vs, es⟩
  cases sd <;> rfl

theorem settleWith_fullResponse (st : DecSt) (r : Settle) :
    (settleWith st r).fullResponse = st.fullResponse := by
  rcases st with ⟨bf, fr, em, sd, vs, es⟩
  cases sd <;> rfl

theorem settleWith_withBuffer (st : DecSt) (r : Settle) (b : List Char) :
    settleWith { st with buffer := b } r = { settleWith st r with buffer := b } := by
  rcases st with ⟨bf, fr, em, sd, vs, es⟩
  cases sd <;> rfl

theorem settleWith_of_settled {st : DecSt} {o : Settle} (r : Settle)
    (h : st.settled = some o) : settleWith st r = st := by
  rcases st with ⟨bf, fr, em, sd, vs, es⟩
  cases sd
  · exact absurd h (by simp)
  · rfl

theorem applyEff_buffer (e : Option Json × Option Settle) (st : DecSt) :
    (applyEff e st).buffer = st.buffer := by
  rcases e with ⟨co, so⟩
  rcases st with ⟨bf, fr, em, sd, vs, es⟩
  rcases co with _ | c <;> rcases so with _ | r <;> cases sd <;> rfl

theorem applyEff_withBuffer (e : Option Json × Option Settle) (st : DecSt)
    (b : List Char) :
    applyEff e { st with buffer := b } = { applyEff e st with buffer := b } := by
  rcases e with ⟨co, so⟩
  rcases st with ⟨bf, fr, em, sd, vs, es⟩
  rcases co with _ | c <;> rcases so with _ | r <;> cases sd <;> rfl

theorem applyEff_settled {e : Option Json × Option Settle} {st : DecSt}
    {o : Settle} (h : st.settled = some o) :
    (applyEff e st).settled = some o ∧
      (applyEff e st).valueAtSettle = st.valueAtSettle ∧
      (applyEff e st).emittedAtSettle = st.emittedAtSettle := by
  rcases e with ⟨co, so⟩
  rcases st with ⟨bf, fr, em, sd, vs, es⟩
  cases sd with
  | none => exact absurd h (by simp)
  | some o2 =>
    obtain rfl : o2 = o := by injection h
    rcases co with _ | c <;> rcases so with _ | r <;> exact ⟨rfl, rfl, rfl⟩

theorem processLine_buffer (line : List Char) (st : DecSt) :
    ((processLine line st).1).buffer = st.buffer := by
  rw [processLine_char]
  exact applyEff_buffer _ _

theorem processLine_withBuffer (line : List Char) (st : DecSt) (b : List Char) :
    processLine line { st with buffer := b } =
      ({ (processLine line st).1 with buffer := b }, (processLine line st).2) := by
  rw [processLine_char, processLine_char, applyEff_withBuffer]

theorem processLine_settled (line : List Char) {st : DecSt} {o : Settle}
    (h : st.settled = some o) :
    ((processLine line st).1).settled = some o ∧
      ((processLine line st).1).valueAtSettle = st.valueAtSettle ∧
      ((processLine line st).1).emittedAtSettle = st.emittedAtSettle := by
  rw [processLine_char]
  exact applyEff_settled h

/-! ### Lemmas: the record loop and fragment feeding -/

theorem runLines_cons (l : List Char) (ls : List (List Char)) (st : DecSt) :
    runLines (l :: ls) st =
      if lineStops l then (processLine l st).1
      else runLines ls (processLine l st).1 := by
  show (match processLine l st with
        | (st1, true) => st1
        | (st1, false) => runLines ls st1) =
      if lineStops l then (processLine l st).1 else runLines ls (processLine l st).1
  have h2 : lineStops l = (processLine l st).2 := (processLine_snd l st).symm
  rw [h2]
  rcases h : processLine l st with ⟨st1, b⟩
  cases b <;> simp

theorem runLines_buffer (ls : List (List Char)) (st : DecSt) :
    (runLines ls st).buffer = st.buffer := by
  induction ls generalizing st with
  | nil => rfl
  | cons l rest ih =>
    rw [runLines_cons]
    by_cases h : lineStops l = true
    · rw [if_pos h]
      exact processLine_buffer l st
    · rw [if_neg h, ih]
      exact processLine_buffer l st

theorem runLines_withBuffer (ls : List (List Char)) (st : DecSt) (b : List Char) :
    runLines ls { st with buffer := b } = { runLines ls st with buffer := b } := by
  induction ls generalizing st with
  | nil => rfl
  | cons l rest ih =>
    rw [runLines_cons, runLines_cons, processLine_withBuffer]
    by_cases h : lineStops l = true
    · rw [if_pos h, if_pos h]
    · rw [if_neg h, if_neg h, ih]

theorem runLines_append_noStop {ls1 : List (List Char)}
    (ls2 : List (List Char)) (st : DecSt)
    (h : ∀ l ∈ ls1, lineStops l = false) :
    runLines (ls1 ++ ls2) st = runLines ls2 (runLines ls1 st) := by
  induction ls1 generalizing st with
  | nil => rfl
  | cons l rest ih =>
    have hl : lineStops l = false := h l (List.mem_cons_self l rest)
    have hrest : ∀ x ∈ rest, lineStops x = false :=
      fun x hx => h x (List.mem_cons_of_mem l hx)
    rw [List.cons_append, runLines_cons, runLines_cons]
    rw [if_neg (by simp [hl]), if_neg (by simp [hl])]
    exact ih _ hrest

theorem runLines_settled {ls : List (List Char)} {st : DecSt} {o : Settle}
    (h : st.settled = some o) :
    (runLines ls st).settled = some o ∧
      (runLines ls st).valueAtSettle = st.valueAtSettle ∧
      (runLines ls st).emittedAtSettle = st.emittedAtSettle := by
  induction ls generalizing st with
  | nil => exact ⟨h, rfl, rfl⟩
  | cons l rest ih =>
    obtain ⟨hs, hv, he⟩ := processLine_settled l h
    rw [runLines_cons]
    by_cases hst : lineStops l = true
    · rw [if_pos hst]
      exact ⟨hs, hv, he⟩
    · rw [if_neg hst]
      obtain ⟨hs2, hv2, he2⟩ := ih hs
      exact ⟨hs2, by rw [hv2, hv], by rw [he2, he]⟩

theorem feedChunk_buffer (st : DecSt) (chunk : List Char) :
    (feedChunk st chunk).buffer = (scanLines (st.buffer ++ chunk)).2 := by
  unfold feedChunk
  rw [runLines_buffer]

theorem feedChunk_nil {st : DecSt} (h : '\n' ∉ st.buffer) :
    feedChunk st [] = st := by
  unfold feedChunk
  rw [List.append_nil, scanLines_noNl h]
  rfl

theorem feedChunk_settled {st : DecSt} {o : Settle} (chunk : List Char)
    (h : st.settled = some o) :
    (feedChunk st chunk).settled = some o ∧
      (feedChunk st chunk).valueAtSettle = st.valueAtSettle ∧
      (feedChunk st chunk).emittedAtSettle = st.emittedAtSettle := by
  unfold feedChunk
  exact runLines_settled h

theorem feedChunk_append (st : DecSt) (a b : List Char)
    (h : ∀ l ∈ (scanLines (st.buffer ++ a)).1, lineStops l = false) :
    feedChunk (feedChunk st a) b = feedChunk st (a ++ b) := by
  conv_lhs => rw [feedChunk, feedChunk]
  rw [runLines_buffer]
  show runLines
      (scanLines ((scanLines (st.buffer ++ a)).2 ++ b)).1
      { runLines (scanLines (st.buffer ++ a)).1
          { st with buffer := (scanLines (st.buffer ++ a)).2 } with
        buffer := (scanLines ((scanLines (st.buffer ++ a)).2 ++ b)).2 } =
    feedChunk st (a ++ b)
  rw [← runLines_withBuffer]
  show runLines (scanLines ((scanLines (st.buffer ++ a)).2 ++ b)).1
      (runLines (scanLines (st.buffer ++ a)).1
        { st with buffer := (scanLines ((scanLines (st.buffer ++ a)).2 ++ b)).2 }) =
    feedChunk st (a ++ b)
  rw [← runLines_append_noStop _ _ h]
  unfold feedChunk
  rw [← List.append_assoc, scanLines_append (st.buffer ++ a) b]

theorem joinNl_eq_nil {lines : List (List Char)} (h : joinNl lines = []) :
    lines = [] := by
  cases lines with
  | nil => rfl
  | cons l ls => simp [joinNl] at h

theorem dropLast_mem_cons {l x : List Char} {ls : List (List Char)}
    (hne : ls ≠ []) (hx : x ∈ ls.dropLast) : x ∈ (l :: ls).dropLast := by
  cases ls with
  | nil => exact absurd rfl hne
  | cons y ys =>
    rw [List.dropLast_cons₂]
    exact List.mem_cons_of_mem l hx

/-- Complete lines of a strict front part of a newline-terminated record
sequence are among the non-final records. -/
theorem scanLines_front_sub {lines : List (List Char)}
    (hNl : ∀ l ∈ lines, '\n' ∉ l) :
    ∀ A t, A ++ t = joinNl lines → t ≠ [] →
      ∀ x ∈ (scanLines A).1, x ∈ lines.dropLast := by
  induction lines with
  | nil =>
    intro A t hA ht x hx
    have : A ++ t = [] := hA
    exact absurd (List.append_eq_nil.mp this).2 ht
  | cons l ls ih =>
    intro A t hA ht x hx
    have hl : '\n' ∉ l := hNl l (List.mem_cons_self l ls)
    have hls : ∀ y ∈ ls, '\n' ∉ y := fun y hy => hNl y (List.mem_cons_of_mem l hy)
    have hA2 : A ++ t = (l ++ ['\n']) ++ joinNl ls := by
      rw [hA, joinNl, List.append_assoc, List.singleton_append]
    rcases List.append_eq_append_iff.mp hA2 with ⟨a2, hc, hb⟩ | ⟨c2, hc, hb⟩
    · rcases a2 with _ | ⟨a1, a1s⟩
      · rw [List.append_nil] at hc
        subst hc
        rw [scanLines_line_nil hl] at hx
        have hlsne : ls ≠ [] := by
          intro hnil
          subst hnil
          rw [List.nil_append] at hb
          exact ht (hb.trans rfl)
        rcases List.mem_singleton.mp hx with rfl
        cases ls with
        | nil => exact absurd rfl hlsne
        | cons y ys =>
          rw [List.dropLast_cons₂]
          exact List.mem_cons_self x (List.dropLast (y :: ys))
      · have hlen : A.length ≤ l.length := by
          have := congrArg List.length hc
          simp at this
          omega
        have hAl : A = l.take A.length := by
          have h1 : (l ++ ['\n']).take A.length = A := by
            rw [hc, List.take_left]
          rw [List.take_append_of_le_length hlen] at h1
          exact h1.symm
        have hAnoNl : '\n' ∉ A := by
          rw [hAl]
          intro hmem
          exact hl (List.take_subset _ _ hmem)
        rw [scanLines_noNl hAnoNl] at hx
        exact absurd hx (List.not_mem_nil x)
    · subst hc
      rw [List.append_assoc, List.singleton_append, scanLines_line _ hl] at hx
      have hlsne : ls ≠ [] := by
        intro hnil
        subst hnil
        exact ht (List.append_eq_nil.mp hb.symm).2
      rcases List.mem_cons.mp hx with rfl | hx2
      · cases ls with
        | nil => exact absurd rfl hlsne
        | cons y ys =>
          rw [List.dropLast_cons₂]
          exact List.mem_cons_self x (List.dropLast (y :: ys))
      · exact dropLast_mem_cons hlsne (ih hls c2 t hb.symm ht x hx2)

/-- Feeding any decomposition of a front part `A` of a well-formed body
fragment-by-fragment equals feeding `A` in one piece. -/
theorem foldl_feed_front {lines : List (List Char)}
    (hNl : ∀ l ∈ lines, '\n' ∉ l)
    (hNS : ∀ l ∈ lines.dropLast, lineStops l = false) :
    ∀ (frags : List (List Char)) (A : List Char),
      frags.flatten = A → (∃ t, A ++ t = joinNl lines) →
      frags.foldl feedChunk initSt = feedChunk initSt A := by
  intro frags
  induction frags using List.reverseRecOn with
  | nil =>
    intro A hA _
    rw [← hA]
    exact (feedChunk_nil (by simp [initSt])).symm
  | append_singleton fs f ih =>
    intro A hA ht
    obtain ⟨t, ht⟩ := ht
    have hB : fs.flatten ++ f = A := by
      rw [← hA, List.flatten_append]
      simp
    have hBt : fs.flatten ++ (f ++ t) = joinNl lines := by
      rw [← List.append_assoc, hB, ht]
    have ihB : fs.foldl feedChunk initSt = feedChunk initSt fs.flatten :=
      ih fs.flatten rfl ⟨f ++ t, hBt⟩
    rw [List.foldl_append, List.foldl_cons, List.foldl_nil, ihB]
    by_cases hft : f ++ t = []
    · have hf : f = [] := (List.append_eq_nil.mp hft).1
      have hBA : A = fs.flatten := by
        rw [← hB, hf, List.append_nil]
      rw [hf, hBA]
      refine feedChunk_nil ?_
      rw [feedChunk_buffer]
      exact scanLines_rest_noNl _
    · have hsub : ∀ x ∈ (scanLines (initSt.buffer ++ fs.flatten)).1,
          lineStops x = false := by
        intro x hx
        have hx2 : x ∈ (scanLines fs.flatten).1 := by
          simpa [initSt] using hx
        exact hNS x (scanLines_front_sub hNl fs.flatten (f ++ t) hBt hft x hx2)
      rw [feedChunk_append initSt fs.flatten f hsub, hB]


/-- Characterization of a record line whose JSON carries a truthy first
choice: it emits the extracted content when truthy, and settles at
`finishStop` exactly when the first choice's `finish_reason` is the string
`"stop"`. -/
theorem lineEff_of_choice {line : List Char} {data choices choice : Json}
    (h1 : (jsTrim line).isEmpty = false)
    (h2 : recordText line ≠ doneMark)
    (h3 : jsonParse (recordText line) = some data)
    (h4 : jsGet data choicesKey = some choices)
    (h5 : jsTruthy choices = true)
    (h6 : jsIndex0 choices = some choice)
    (h7 : jsTruthy choice = true) :
    lineEff line =
      ((if jsTruthy (extractContent choice) = true then some (extractContent choice)
        else none),
       (match jsGet choice finishKey with
        | some (Json.str fr) => if fr = stopMark then some Settle.finishStop else none
        | _ => none)) := by
  dsimp only [lineEff]
  rw [if_neg (by simp [h1]), if_neg h2]
  simp only [h3, h4, h5, h6, h7, if_true]
  rcases h8 : jsGet choice finishKey with _ | fv
  · simp
  · rcases fv with _ | b | lex | fr | xs | fs2
    · simp
    · simp
    · simp
    · by_cases h9 : fr = stopMark
      · simp [h9]
      · simp [h9]
    · simp
    · simp

/-! ### Claim theorems -/

/-- C1: fragmentation invariance of the decoder.  For every valid streamed
response body — newline-terminated records none of which, except possibly the
final one, is a terminating record — and every way of splitting the body into
fragments, the streaming decode loop produces the identical final state
(hence the identical ordered emission sequence and identical concatenated
text) as receiving the body in one piece.  In particular, the spec's example
body emits "Hel" then "lo" and completes with full text "Hello" and the
`[DONE]` settlement. -/
theorem stream_fragmentation_invariance :
    (∀ (lines frags : List (List Char)),
        (∀ l ∈ lines, '\n' ∉ l) →
        (∀ l ∈ lines.dropLast, lineStops l = false) →
        frags.flatten = joinNl lines →
        chatRun frags = chatRun [joinNl lines]) ∧
    (chatRun [exBody]).emitted = [Json.str "Hel".data, Json.str "lo".data] ∧
    (chatRun [exBody]).fullResponse = "Hello".data ∧
    (chatRun [exBody]).settled = some Settle.doneSentinel := by
  refine ⟨?_, rfl, rfl, rfl⟩
  intro lines frags hNl hNS hflat
  unfold chatRun
  have h1 := foldl_feed_front hNl hNS frags (joinNl lines) hflat ⟨[], by simp⟩
  have h2 := foldl_feed_front hNl hNS [joinNl lines] (joinNl lines)
    (by simp) ⟨[], by simp⟩
  rw [h1, h2]

/-- Witness for C1 at the spec's example body, fragmented mid-record and
mid-line. -/
theorem stream_fragmentation_invariance_w :
    chatRun exFrags = chatRun [joinNl exLines] :=
  stream_fragmentation_invariance.1 exLines exFrags (by decide) (by decide)
    (by decide)

/-- C2: the line-buffering step.  The claim describes splitting at newline
characters with the trailing partial record retained and no byte lost.  The
fixed decoders do exactly this (last conjunct: recombining the extracted
lines with their newlines and the retained buffer restores the input
byte-for-byte, so nothing is dropped or duplicated), but the
`src/src/ollamaService.ts` revision calls `buffer.split('\\n')` — splitting
at the literal two-character sequence backslash-`n` — so a fragment holding a
complete newline-terminated `[DONE]` record is retained whole in its buffer,
no record is extracted, and nothing settles, while the fixed decoder settles
at the sentinel. -/
theorem line_buffering_step :
    (legacyFeed initSt "data: [DONE]\n".data).emitted = [] ∧
    (legacyFeed initSt "data: [DONE]\n".data).settled = none ∧
    (legacyFeed initSt "data: [DONE]\n".data).buffer = "data: [DONE]\n".data ∧
    (feedChunk initSt "data: [DONE]\n".data).settled = some Settle.doneSentinel ∧
    (feedChunk initSt "data: [DONE]\n".data).buffer = [] ∧
    (∀ s : List Char, joinNl (scanLines s).1 ++ (scanLines s).2 = s) :=
  ⟨rfl, rfl, rfl, rfl, rfl, joinNl_scanLines⟩

/-- C3: dual record-shape support.  A well-formed record whose first choice
carries string content `c` either in `delta.content` or (with no truthy
`delta.content`) in `message.content` causes exactly one emission of `c`,
appended to the shadow concatenation, with no prior configuration for either
shape. -/
theorem dual_record_shape_support :
    ∀ (st : DecSt) (line : List Char) (data choices choice : Json)
      (c : List Char),
      (jsTrim line).isEmpty = false →
      recordText line ≠ doneMark →
      jsonParse (recordText line) = some data →
      jsGet data choicesKey = some choices →
      jsTruthy choices = true →
      jsIndex0 choices = some choice →
      jsTruthy choice = true →
      (andGet (jsGet choice deltaKey) contentKey = some (Json.str c) ∨
        (truthyO (andGet (jsGet choice deltaKey) contentKey) = false ∧
          andGet (jsGet choice messageKey) contentKey = some (Json.str c))) →
      c ≠ [] →
      (processLine line st).1.emitted = st.emitted ++ [Json.str c] ∧
      (processLine line st).1.fullResponse = st.fullResponse ++ c := by
  intro st line data choices choice c h1 h2 h3 h4 h5 h6 h7 h8 h9
  have hct : jsTruthy (Json.str c) = true := by
    simp [jsTruthy]
    intro hc
    exact h9 hc
  have hext : extractContent choice = Json.str c := by
    rcases h8 with h8 | ⟨h8f, h8m⟩
    · simp [extractContent, h8, truthyO, hct]
    · dsimp only [extractContent]
      rw [if_neg (by simp [h8f]), h8m, if_pos (by simp [truthyO, hct])]
      rfl
  rw [processLine_char, lineEff_of_choice h1 h2 h3 h4 h5 h6 h7, hext,
    if_pos hct]
  rcases h10 : jsGet choice finishKey with _ | fv
  · simp [applyEff, jsToString]
  · rcases fv with _ | b | lex | fr | xs | fs2
    · simp [applyEff, jsToString]
    · simp [applyEff, jsToString]
    · simp [applyEff, jsToString]
    · by_cases h11 : fr = stopMark
      · simp [h11, applyEff, jsToString, settleWith_emitted,
          settleWith_fullResponse]
      · simp [h11, applyEff, jsToString]
    · simp [applyEff, jsToString]
    · simp [applyEff, jsToString]

/-- Witness for C3: one record of each shape, applied at the initial state. -/
theorem dual_record_shape_support_w :
    ((processLine helRecord initSt).1.emitted =
        initSt.emitted ++ [Json.str "Hel".data] ∧
      (processLine helRecord initSt).1.fullResponse =
        initSt.fullResponse ++ "Hel".data) ∧
    ((processLine msgRecord initSt).1.emitted =
        initSt.emitted ++ [Json.str "Hi there".data] ∧
      (processLine msgRecord initSt).1.fullResponse =
        initSt.fullResponse ++ "Hi there".data) :=
  ⟨dual_record_shape_support initSt helRecord jsonHel
      (Json.arr [Json.obj [("delta".data,
        Json.obj [("content".data, Json.str "Hel".data)])]])
      (Json.obj [("delta".data, Json.obj [("content".data, Json.str "Hel".data)])])
      "Hel".data rfl (by decide) rfl rfl rfl rfl rfl (Or.inl rfl) (by decide),
   dual_record_shape_support initSt msgRecord jsonMsg
      (Json.arr [Json.obj [("message".data,
        Json.obj [("content".data, Json.str "Hi there".data)])]])
      (Json.obj [("message".data,
        Json.obj [("content".data, Json.str "Hi there".data)])])
      "Hi there".data rfl (by decide) rfl rfl rfl rfl rfl
      (Or.inr ⟨rfl, rfl⟩) (by decide)⟩

/-- C4 counterexample: the body delivers the `[DONE]` sentinel in one fragment
and a content record in a later fragment on the same connection.  The
operation settles successfully at the sentinel (with captured value `""`),
yet the later record is still decoded and causes a sink emission — refuting
the claim that no record after the sentinel is processed or causes an
emission. -/
theorem done_sentinel_cex :
    (provRun [PEvent.dataEv false "data: [DONE]\n".data]).settled =
        some Settle.doneSentinel ∧
    (provRun [PEvent.dataEv false "data: [DONE]\n".data,
        PEvent.dataEv false
          "data: \x7b\"choices\":[\x7b\"delta\":\x7b\"content\":\"X\"\x7d\x7d]\x7d\n".data]).settled =
        some Settle.doneSentinel ∧
    (provRun [PEvent.dataEv false "data: [DONE]\n".data,
        PEvent.dataEv false
          "data: \x7b\"choices\":[\x7b\"delta\":\x7b\"content\":\"X\"\x7d\x7d]\x7d\n".data]).emitted =
        [Json.str "X".data] ∧
    (provRun [PEvent.dataEv false "data: [DONE]\n".data,
        PEvent.dataEv false
          "data: \x7b\"choices\":[\x7b\"delta\":\x7b\"content\":\"X\"\x7d\x7d]\x7d\n".data]).valueAtSettle =
        [] :=
  ⟨rfl, rfl, rfl, rfl⟩

/-- C4 (amended): a `[DONE]` record settles the operation successfully at
that record; the remaining records of the same fragment are skipped (the
loop returns); and once settled, the outcome and its captured value and
emission log can never be changed by later fragments.  (Records in later
fragments are nonetheless still decoded and may cause emissions, as
`done_sentinel_cex` shows.) -/
theorem done_sentinel_same_fragment :
    (∀ (st : DecSt) (line : List Char),
        (jsTrim line).isEmpty = false →
        recordText line = doneMark →
        processLine line st = (settleWith st Settle.doneSentinel, true)) ∧
    (∀ (l : List Char) (ls : List (List Char)) (st : DecSt),
        lineStops l = true →
        runLines (l :: ls) st = (processLine l st).1) ∧
    (∀ (st : DecSt) (o : Settle) (chunk : List Char),
        st.settled = some o →
        (feedChunk st chunk).settled = some o ∧
        (feedChunk st chunk).valueAtSettle = st.valueAtSettle ∧
        (feedChunk st chunk).emittedAtSettle = st.emittedAtSettle) := by
  refine ⟨?_, ?_, ?_⟩
  · intro st line h1 h2
    rw [processLine_char]
    have heff : lineEff line = (none, some Settle.doneSentinel) := by
      dsimp only [lineEff]
      rw [if_neg (by simp [h1]), if_pos h2]
    rw [heff]
    rfl
  · intro l ls st h
    rw [runLines_cons, if_pos h]
  · intro st o chunk h
    exact feedChunk_settled chunk h

/-- Witness for C4's amended theorem at the `[DONE]` record and a settled
state. -/
theorem done_sentinel_same_fragment_w :
    processLine doneRecord initSt = (settleWith initSt Settle.doneSentinel, true) ∧
    runLines [doneRecord, helRecord] initSt = (processLine doneRecord initSt).1 ∧
    (feedChunk (settleWith initSt Settle.doneSentinel) "x".data).settled =
      some Settle.doneSentinel :=
  ⟨done_sentinel_same_fragment.1 initSt doneRecord rfl rfl,
   done_sentinel_same_fragment.2.1 doneRecord [helRecord] initSt (by decide),
   (done_sentinel_same_fragment.2.2 (settleWith initSt Settle.doneSentinel)
      Settle.doneSentinel "x".data rfl).1⟩

/-- C5: malformed-record tolerance.  A non-empty record whose payload fails
to parse as JSON, or parses but fails the `choices`/first-choice guard,
leaves the decoder state exactly unchanged and does not stop the loop; hence
inserting such a record anywhere in a record sequence leaves the run on the
surrounding records literally identical. -/
theorem malformed_record_skipped :
    ∀ (ls1 ls2 : List (List Char)) (line : List Char) (st : DecSt),
      (jsTrim line).isEmpty = false →
      recordText line ≠ doneMark →
      (jsonParse (recordText line) = none ∨
        ∃ data, jsonParse (recordText line) = some data ∧
          firstChoice data = none) →
      processLine line st = (st, false) ∧
      runLines (ls1 ++ line :: ls2) st = runLines (ls1 ++ ls2) st := by
  intro ls1 ls2 line st h1 h2 h3
  have hpl : ∀ s : DecSt, processLine line s = (s, false) := by
    intro s
    dsimp only [processLine]
    rw [if_neg (by simp [h1]), if_neg h2]
    rcases h3 with h3 | ⟨data, h3, hfc⟩
    · simp only [h3]
    · simp only [h3]
      dsimp only [firstChoice] at hfc
      rcases h4 : jsGet data choicesKey with _ | choices
      · simp only [h4]
      · simp only [h4] at hfc ⊢
        by_cases h5 : jsTruthy choices = true
        · simp only [h5, if_true] at hfc ⊢
          rcases h6 : jsIndex0 choices with _ | choice
          · simp only [h6]
          · simp only [h6] at hfc ⊢
            by_cases h7 : jsTruthy choice = true
            · rw [if_pos h7] at hfc
              exact absurd hfc (by simp)
            · rw [if_neg h7]
        · rw [if_neg h5] at hfc ⊢
  have hstop : lineStops line = false := by
    unfold lineStops
    rw [hpl initSt]
  refine ⟨hpl st, ?_⟩
  induction ls1 generalizing st with
  | nil =>
    rw [List.nil_append, List.nil_append, runLines_cons, if_neg (by simp [hstop]),
      hpl st]
  | cons x xs ih =>
    rw [List.cons_append, List.cons_append, runLines_cons, runLines_cons]
    by_cases hx : lineStops x = true
    · rw [if_pos hx, if_pos hx]
    · rw [if_neg hx, if_neg hx]
      exact ih _

/-- Witness for C5: a truncated-JSON record between the two valid records of
the example body. -/
theorem malformed_record_skipped_w :
    processLine badRecord initSt = (initSt, false) ∧
    runLines ([helRecord] ++ badRecord :: [loRecord]) initSt =
      runLines ([helRecord] ++ [loRecord]) initSt :=
  malformed_record_skipped [helRecord] [loRecord] badRecord initSt rfl
    (by decide) (Or.inl rfl)

/-- C6 counterexample: a fragment carries a record with content `"A"` and
`finish_reason: "stop"`; a later fragment carries a content record `"B"`.
The operation settles at `finishStop` with captured value `"A"` (content
emitted before completion), but the later fragment's record is still
processed and emitted — refuting the claim that no further records from the
transport are processed after the finishing record. -/
theorem finish_reason_cex :
    (provRun [PEvent.dataEv false (finRecord ++ ['\n'])]).settled =
        some Settle.finishStop ∧
    (provRun [PEvent.dataEv false (finRecord ++ ['\n']),
        PEvent.dataEv false
          "data: \x7b\"choices\":[\x7b\"delta\":\x7b\"content\":\"B\"\x7d\x7d]\x7d\n".data]).settled =
        some Settle.finishStop ∧
    (provRun [PEvent.dataEv false (finRecord ++ ['\n']),
        PEvent.dataEv false
          "data: \x7b\"choices\":[\x7b\"delta\":\x7b\"content\":\"B\"\x7d\x7d]\x7d\n".data]).valueAtSettle =
        "A".data ∧
    (provRun [PEvent.dataEv false (finRecord ++ ['\n']),
        PEvent.dataEv false
          "data: \x7b\"choices\":[\x7b\"delta\":\x7b\"content\":\"B\"\x7d\x7d]\x7d\n".data]).emitted =
        [Json.str "A".data, Json.str "B".data] :=
  ⟨rfl, rfl, rfl, rfl⟩

/-- C6 (amended): a record whose first choice has `finish_reason: "stop"`
first emits that record's content (if truthy) and then settles the operation
at `finishStop`, making the loop return so that the remaining records of the
same fragment are skipped; the settled outcome is never changed by later
fragments.  (Records in later fragments are nonetheless still decoded and
may cause emissions, as `finish_reason_cex` shows.) -/
theorem finish_reason_same_fragment :
    (∀ (st : DecSt) (line : List Char) (data choices choice : Json),
        (jsTrim line).isEmpty = false →
        recordText line ≠ doneMark →
        jsonParse (recordText line) = some data →
        jsGet data choicesKey = some choices →
        jsTruthy choices = true →
        jsIndex0 choices = some choice →
        jsTruthy choice = true →
        jsGet choice finishKey = some (Json.str stopMark) →
        processLine line st =
          (settleWith (emitContent (extractContent choice) st)
            Settle.finishStop, true)) ∧
    (∀ (l : List Char) (ls : List (List Char)) (st : DecSt),
        lineStops l = true →
        runLines (l :: ls) st = (processLine l st).1) ∧
    (∀ (st : DecSt) (o : Settle) (chunk : List Char),
        st.settled = some o → (feedChunk st chunk).settled = some o) := by
  refine ⟨?_, ?_, ?_⟩
  · intro st line data choices choice h1 h2 h3 h4 h5 h6 h7 h8
    rw [processLine_char, lineEff_of_choice h1 h2 h3 h4 h5 h6 h7]
    simp only [h8, if_pos rfl]
    by_cases hc : jsTruthy (extractContent choice) = true
    · rw [if_pos hc]
      simp [applyEff, emitContent, hc]
    · rw [if_neg hc]
      simp [applyEff, emitContent, hc]
  · intro l ls st h
    rw [runLines_cons, if_pos h]
  · intro st o chunk h
    exact (feedChunk_settled chunk h).1

/-- Witness for C6's amended theorem at the concrete finishing record. -/
theorem finish_reason_same_fragment_w :
    processLine finRecord initSt =
      (settleWith
        (emitContent
          (extractContent (Json.obj
            [("delta".data, Json.obj [("content".data, Json.str "A".data)]),
             ("finish_reason".data, Json.str "stop".data)]))
          initSt)
        Settle.finishStop, true) ∧
    runLines [finRecord, helRecord] initSt = (processLine finRecord initSt).1 ∧
    (feedChunk (settleWith initSt Settle.finishStop) "x".data).settled =
      some Settle.finishStop :=
  ⟨finish_reason_same_fragment.1 initSt finRecord jsonFin
      (Json.arr [Json.obj
        [("delta".data, Json.obj [("content".data, Json.str "A".data)]),
         ("finish_reason".data, Json.str "stop".data)]])
      (Json.obj
        [("delta".data, Json.obj [("content".data, Json.str "A".data)]),
         ("finish_reason".data, Json.str "stop".data)])
      rfl (by decide) rfl rfl rfl rfl rfl rfl,
   finish_reason_same_fragment.2.1 finRecord [helRecord] initSt (by decide),
   finish_reason_same_fragment.2.2 (settleWith initSt Settle.finishStop)
      Settle.finishStop "x".data rfl⟩

/-- C7: transport failure mapping.  An axios error with code `ECONNREFUSED`
maps to the backend-unavailable message; an axios error with response status
404 (and no `ECONNREFUSED` code) maps to the model-not-found message, which
names the requested model as a substring; all non-axios errors map to the
generic message; and the three messages are pairwise distinct for every
model name. -/
theorem transport_failure_mapping :
    ∀ (model : List Char) (e : AxiosFailure),
      (e.isAxiosError = true → e.code = some econnRefused →
        chatFailureMessage model e = connRefusedMsg) ∧
      (e.isAxiosError = true → e.code ≠ some econnRefused →
        e.status = some 404 →
        chatFailureMessage model e = modelNotFoundMsg model) ∧
      (e.isAxiosError = false → chatFailureMessage model e = genericChatMsg) ∧
      (∃ pre post, modelNotFoundMsg model = pre ++ model ++ post) ∧
      connRefusedMsg ≠ modelNotFoundMsg model ∧
      connRefusedMsg ≠ genericChatMsg ∧
      modelNotFoundMsg model ≠ genericChatMsg := by
  intro model e
  refine ⟨?_, ?_, ?_, ?_, ?_, ?_, ?_⟩
  · intro h1 h2
    simp [chatFailureMessage, h1, h2]
  · intro h1 h2 h3
    simp [chatFailureMessage, h1, h2, h3]
  · intro h1
    simp [chatFailureMessage, h1]
  · exact ⟨"Model \"".data,
      ("\" not found. Please pull the model first using: ollama pull ".data
        ++ model),
      by simp [modelNotFoundMsg]⟩
  · intro h
    have h1 : connRefusedMsg.head? = some 'C' := rfl
    have h2 : (modelNotFoundMsg model).head? = some 'M' := rfl
    rw [h] at h1
    exact absurd (h1.symm.trans h2) (by decide)
  · intro h
    have h1 : connRefusedMsg.head? = some 'C' := rfl
    have h2 : genericChatMsg.head? = some 'F' := rfl
    rw [h] at h1
    exact absurd (h1.symm.trans h2) (by decide)
  · intro h
    have h1 : (modelNotFoundMsg model).head? = some 'M' := rfl
    have h2 : genericChatMsg.head? = some 'F' := rfl
    rw [h] at h1
    exact absurd (h1.symm.trans h2) (by decide)

/-- Witness for C7 at a concrete model name and concrete failures. -/
theorem transport_failure_mapping_w :
    chatFailureMessage "llama3".data
        { isAxiosError := true, code := some econnRefused, status := none } =
      connRefusedMsg ∧
    chatFailureMessage "llama3".data
        { isAxiosError := true, code := none, status := some 404 } =
      modelNotFoundMsg "llama3".data :=
  ⟨(transport_failure_mapping "llama3".data
      { isAxiosError := true, code := some econnRefused, status := none }).1
      rfl rfl,
   (transport_failure_mapping "llama3".data
      { isAxiosError := true, code := none, status := some 404 }).2.1
      rfl (by simp) rfl⟩

theorem settleWith_of_none {st : DecSt} (r : Settle) (h : st.settled = none) :
    (settleWith st r).settled = some r := by
  rcases st with ⟨bf, fr, em, sd, vs, es⟩
  cases sd
  · rfl
  · exact absurd h (by simp)

theorem provStep_settled_some {st : DecSt} {o : Settle} {e : PEvent}
    (h : st.settled = some o) : (provStep st e).settled = some o := by
  cases e with
  | dataEv cr chunk =>
    dsimp only [provStep]
    by_cases hcr : cr = true
    · rw [if_pos hcr, settleWith_of_settled _ h]
      exact h
    · rw [if_neg hcr]
      exact (feedChunk_settled chunk h).1
  | endEv =>
    dsimp only [provStep]
    rw [settleWith_of_settled _ h]
    exact h
  | errEv m =>
    dsimp only [provStep]
    rw [settleWith_of_settled _
      (show ({ st with emitted :=
          st.emitted ++ [Json.str (streamErrText m)] } : DecSt).settled = some o
        from h)]
    exact h

theorem provRunFrom_settled {st : DecSt} {o : Settle} (evs : List PEvent)
    (h : st.settled = some o) : (provRunFrom st evs).settled = some o := by
  induction evs generalizing st with
  | nil => exact h
  | cons e rest ih => exact ih (provStep_settled_some h)

theorem provRunFrom_quiet {st : DecSt} (evs : List PEvent)
    (h : ∀ e ∈ evs, (∃ c, e = PEvent.dataEv true c) ∨ e = PEvent.endEv) :
    (provRunFrom st evs).emitted = st.emitted ∧
    (provRunFrom st evs).buffer = st.buffer := by
  induction evs generalizing st with
  | nil => exact ⟨rfl, rfl⟩
  | cons e rest ih =>
    have he := h e (List.mem_cons_self e rest)
    have hrest : ∀ x ∈ rest, (∃ c, x = PEvent.dataEv true c) ∨ x = PEvent.endEv :=
      fun x hx => h x (List.mem_cons_of_mem e hx)
    have hstep : (provStep st e).emitted = st.emitted ∧
        (provStep st e).buffer = st.buffer := by
      rcases he with ⟨c, rfl⟩ | rfl
      · dsimp only [provStep]
        rw [if_pos rfl]
        exact ⟨settleWith_emitted st _, settleWith_buffer st _⟩
      · exact ⟨settleWith_emitted st _, settleWith_buffer st _⟩
    exact ⟨(ih hrest).1.trans hstep.1, (ih hrest).2.trans hstep.2⟩

/-- C8: cancellation behaviour.  A `'data'` event observed with the token
cancelled resolves at the cancellation site and does nothing else — no
emission, and the fragment is not even appended to the buffer; once
cancellation has settled an unsettled request, no sequence of later events
(including `'error'` ones) can change the outcome away from the cancellation
resolution, so the request never becomes Failed; subsequent events under a
(monotone) cancelled token and a racing end-of-stream neither emit nor read
input; and the VS Code provider's streaming loop emits nothing from the
iteration that observes cancellation on. -/
theorem cancellation_behaviour :
    (∀ (st : DecSt) (chunk : List Char),
        provStep st (PEvent.dataEv true chunk) = settleWith st Settle.cancelTok ∧
        (provStep st (PEvent.dataEv true chunk)).emitted = st.emitted ∧
        (provStep st (PEvent.dataEv true chunk)).buffer = st.buffer) ∧
    (∀ (evs1 : List PEvent) (chunk : List Char) (evs2 : List PEvent),
        (provRun evs1).settled = none →
        (provRunFrom (provStep (provRun evs1) (PEvent.dataEv true chunk))
            evs2).settled = some Settle.cancelTok) ∧
    (∀ (st : DecSt) (evs : List PEvent),
        (∀ e ∈ evs, (∃ c, e = PEvent.dataEv true c) ∨ e = PEvent.endEv) →
        (provRunFrom st evs).emitted = st.emitted ∧
        (provRunFrom st evs).buffer = st.buffer) ∧
    (∀ (frag : List Char) (rest : List (Bool × List Char)),
        vscodeStreamLoop ((true, frag) :: rest) = []) := by
  refine ⟨?_, ?_, ?_, ?_⟩
  · intro st chunk
    refine ⟨?_, ?_, ?_⟩
    · dsimp only [provStep]
      rw [if_pos rfl]
    · dsimp only [provStep]
      rw [if_pos rfl]
      exact settleWith_emitted st _
    · dsimp only [provStep]
      rw [if_pos rfl]
      exact settleWith_buffer st _
  · intro evs1 chunk evs2 h
    apply provRunFrom_settled
    dsimp only [provStep]
    rw [if_pos rfl]
    exact settleWith_of_none _ h
  · exact fun st evs h => provRunFrom_quiet evs h
  · intro frag rest
    simp [vscodeStreamLoop]

/-- Witness for C8: cancellation observed after one clean record, followed by
end-of-stream. -/
theorem cancellation_behaviour_w :
    provStep initSt (PEvent.dataEv true "x".data) =
      settleWith initSt Settle.cancelTok ∧
    (provRunFrom (provStep (provRun [PEvent.dataEv false (helRecord ++ ['\n'])])
        (PEvent.dataEv true "y".data)) [PEvent.endEv]).settled =
      some Settle.cancelTok ∧
    vscodeStreamLoop [(true, "frag".data)] = [] :=
  ⟨(cancellation_behaviour.1 initSt "x".data).1,
   cancellation_behaviour.2.1 [PEvent.dataEv false (helRecord ++ ['\n'])]
     "y".data [PEvent.endEv] rfl,
   cancellation_behaviour.2.2.2 "frag".data []⟩

theorem settleWith_inv {st : DecSt} (r : Settle)
    (h1 : st.fullResponse = (st.emitted.map jsToString).flatten)
    (h2 : st.valueAtSettle = (st.emittedAtSettle.map jsToString).flatten) :
    (settleWith st r).fullResponse =
        ((settleWith st r).emitted.map jsToString).flatten ∧
      (settleWith st r).valueAtSettle =
        ((settleWith st r).emittedAtSettle.map jsToString).flatten := by
  rcases st with ⟨bf, fr, em, sd, vs, es⟩
  cases sd
  · exact ⟨h1, h1⟩
  · exact ⟨h1, h2⟩

theorem applyEff_inv {st : DecSt} (e : Option Json × Option Settle)
    (h1 : st.fullResponse = (st.emitted.map jsToString).flatten)
    (h2 : st.valueAtSettle = (st.emittedAtSettle.map jsToString).flatten) :
    (applyEff e st).fullResponse =
        ((applyEff e st).emitted.map jsToString).flatten ∧
      (applyEff e st).valueAtSettle =
        ((applyEff e st).emittedAtSettle.map jsToString).flatten := by
  rcases e with ⟨co, so⟩
  rcases co with _ | c
  · rcases so with _ | r
    · exact ⟨h1, h2⟩
    · exact settleWith_inv r h1 h2
  · have h1e : ({ st with
          fullResponse := st.fullResponse ++ jsToString c,
          emitted := st.emitted ++ [c] } : DecSt).fullResponse =
        (({ st with
          fullResponse := st.fullResponse ++ jsToString c,
          emitted := st.emitted ++ [c] } : DecSt).emitted.map jsToString).flatten := by
      simp [h1]
    rcases so with _ | r
    · exact ⟨h1e, h2⟩
    · exact settleWith_inv r h1e h2

theorem processLine_inv {st : DecSt} (line : List Char)
    (h1 : st.fullResponse = (st.emitted.map jsToString).flatten)
    (h2 : st.valueAtSettle = (st.emittedAtSettle.map jsToString).flatten) :
    ((processLine line st).1).fullResponse =
        (((processLine line st).1).emitted.map jsToString).flatten ∧
      ((processLine line st).1).valueAtSettle =
        (((processLine line st).1).emittedAtSettle.map jsToString).flatten := by
  rw [processLine_char]
  exact applyEff_inv _ h1 h2

theorem runLines_inv {st : DecSt} (ls : List (List Char))
    (h1 : st.fullResponse = (st.emitted.map jsToString).flatten)
    (h2 : st.valueAtSettle = (st.emittedAtSettle.map jsToString).flatten) :
    (runLines ls st).fullResponse =
        ((runLines ls st).emitted.map jsToString).flatten ∧
      (runLines ls st).valueAtSettle =
        ((runLines ls st).emittedAtSettle.map jsToString).flatten := by
  induction ls generalizing st with
  | nil => exact ⟨h1, h2⟩
  | cons l rest ih =>
    rw [runLines_cons]
    by_cases hs : lineStops l = true
    · rw [if_pos hs]
      exact processLine_inv l h1 h2
    · rw [if_neg hs]
      exact ih (processLine_inv l h1 h2).1 (processLine_inv l h1 h2).2

theorem feedChunk_inv {st : DecSt} (chunk : List Char)
    (h1 : st.fullResponse = (st.emitted.map jsToString).flatten)
    (h2 : st.valueAtSettle = (st.emittedAtSettle.map jsToString).flatten) :
    (feedChunk st chunk).fullResponse =
        ((feedChunk st chunk).emitted.map jsToString).flatten ∧
      (feedChunk st chunk).valueAtSettle =
        ((feedChunk st chunk).emittedAtSettle.map jsToString).flatten := by
  unfold feedChunk
  exact runLines_inv _ h1 h2

theorem svcStep_inv {st : DecSt} (e : SEvent)
    (h1 : st.fullResponse = (st.emitted.map jsToString).flatten)
    (h2 : st.valueAtSettle = (st.emittedAtSettle.map jsToString).flatten) :
    (svcStep st e).fullResponse =
        ((svcStep st e).emitted.map jsToString).flatten ∧
      (svcStep st e).valueAtSettle =
        ((svcStep st e).emittedAtSettle.map jsToString).flatten := by
  cases e with
  | dataEv chunk => exact feedChunk_inv chunk h1 h2
  | endEv => exact settleWith_inv _ h1 h2
  | errEv => exact settleWith_inv _ h1 h2
  | timeoutEv => exact settleWith_inv _ h1 h2

/-- C9: shadow-copy equality.  At every point of a service streaming call,
the accumulated `fullResponse` is exactly the in-order concatenation of the
values delivered to the sink, and the value captured at settlement — the
string `resolve(fullResponse)` makes the `chat` call return — is exactly the
concatenation of the values that had been delivered to the sink when the
promise settled. -/
theorem shadow_copy_equality :
    ∀ evs : List SEvent,
      (svcRun evs).fullResponse =
        ((svcRun evs).emitted.map jsToString).flatten ∧
      (svcRun evs).valueAtSettle =
        ((svcRun evs).emittedAtSettle.map jsToString).flatten := by
  have main : ∀ (evs : List SEvent) (st : DecSt),
      st.fullResponse = (st.emitted.map jsToString).flatten →
      st.valueAtSettle = (st.emittedAtSettle.map jsToString).flatten →
      (evs.foldl svcStep st).fullResponse =
          ((evs.foldl svcStep st).emitted.map jsToString).flatten ∧
        (evs.foldl svcStep st).valueAtSettle =
          ((evs.foldl svcStep st).emittedAtSettle.map jsToString).flatten := by
    intro evs
    induction evs with
    | nil => exact fun st h1 h2 => ⟨h1, h2⟩
    | cons e rest ih =>
      exact fun st h1 h2 =>
        ih (svcStep st e) (svcStep_inv e h1 h2).1 (svcStep_inv e h1 h2).2
  exact fun evs => main evs initSt rfl rfl

theorem lineEff_fst_truthy (line : List Char) :
    (lineEff line).1 = none ∨
    ∃ c, (lineEff line).1 = some c ∧ jsTruthy c = true := by
  dsimp only [lineEff]
  by_cases h1 : (jsTrim line).isEmpty = true
  · simp [h1]
  · rw [if_neg (by simp [h1])]
    by_cases h2 : recordText line = doneMark
    · simp [h2]
    · rw [if_neg h2]
      rcases h3 : jsonParse (recordText line) with _ | data
      · simp
      · rcases h4 : jsGet data choicesKey with _ | choices
        · simp [h4]
        · by_cases h5 : jsTruthy choices = true
          · simp only [h4, h5, if_true]
            rcases h6 : jsIndex0 choices with _ | choice
            · simp
            · by_cases h7 : jsTruthy choice = true
              · simp only [h7, if_true]
                by_cases hc : jsTruthy (extractContent choice) = true
                · rcases h8 : jsGet choice finishKey with _ | fv
                  · exact Or.inr ⟨_, by simp [hc], hc⟩
                  · rcases fv with _ | b | lex | fr | xs | fs2
                    · exact Or.inr ⟨_, by simp [hc], hc⟩
                    · exact Or.inr ⟨_, by simp [hc], hc⟩
                    · exact Or.inr ⟨_, by simp [hc], hc⟩
                    · by_cases h9 : fr = stopMark
                      · exact Or.inr ⟨_, by simp [hc, h9], hc⟩
                      · exact Or.inr ⟨_, by simp [hc, h9], hc⟩
                    · exact Or.inr ⟨_, by simp [hc], hc⟩
                    · exact Or.inr ⟨_, by simp [hc], hc⟩
                · rcases h8 : jsGet choice finishKey with _ | fv
                  · simp [hc]
                  · rcases fv with _ | b | lex | fr | xs | fs2
                    · simp [hc]
                    · simp [hc]
                    · simp [hc]
                    · by_cases h9 : fr = stopMark
                      · simp [hc, h9]
                      · simp [hc, h9]
                    · simp [hc]
                    · simp [hc]
              · simp [h7]
          · simp [h4, h5]

theorem applyEff_emitted (e : Option Json × Option Settle) (st : DecSt) :
    (applyEff e st).emitted =
      (match e.1 with
       | some c => st.emitted ++ [c]
       | none => st.emitted) := by
  rcases e with ⟨co, so⟩
  rcases co with _ | c <;> rcases so with _ | r <;>
    simp [applyEff, settleWith_emitted]

theorem processLine_emitted_truthy (line : List Char) (st : DecSt) :
    (processLine line st).1.emitted = st.emitted ∨
    ∃ c, (processLine line st).1.emitted = st.emitted ++ [c] ∧
      jsTruthy c = true := by
  rw [processLine_char]
  rw [applyEff_emitted]
  rcases lineEff_fst_truthy line with h | ⟨c, h, hc⟩
  · rw [h]
    exact Or.inl rfl
  · rw [h]
    exact Or.inr ⟨c, rfl, hc⟩

theorem runLines_truthy {st : DecSt} (ls : List (List Char))
    (h : ∀ v ∈ st.emitted, jsTruthy v = true) :
    ∀ v ∈ (runLines ls st).emitted, jsTruthy v = true := by
  induction ls generalizing st with
  | nil => exact h
  | cons l rest ih =>
    have hstep : ∀ v ∈ ((processLine l st).1).emitted, jsTruthy v = true := by
      rcases processLine_emitted_truthy l st with he | ⟨c, he, hc⟩
      · rw [he]
        exact h
      · rw [he]
        intro v hv
        rcases List.mem_append.mp hv with hv | hv
        · exact h v hv
        · rcases List.mem_singleton.mp hv with rfl
          exact hc
    rw [runLines_cons]
    by_cases hs : lineStops l = true
    · rw [if_pos hs]
      exact hstep
    · rw [if_neg hs]
      exact ih hstep

theorem streamErrText_truthy (m : List Char) :
    jsTruthy (Json.str (streamErrText m)) = true := by
  have h : streamErrText m =
      '\n' :: ("\n[Stream error: ".data ++ m ++ "]".data) := rfl
  rw [h]
  simp [jsTruthy]

theorem provStep_truthy {st : DecSt} (e : PEvent)
    (h : ∀ v ∈ st.emitted, jsTruthy v = true) :
    ∀ v ∈ (provStep st e).emitted, jsTruthy v = true := by
  cases e with
  | dataEv cr chunk =>
    dsimp only [provStep]
    by_cases hcr : cr = true
    · rw [if_pos hcr, settleWith_emitted]
      exact h
    · rw [if_neg hcr]
      unfold feedChunk
      exact runLines_truthy _ h
  | endEv =>
    dsimp only [provStep]
    rw [settleWith_emitted]
    exact h
  | errEv m =>
    dsimp only [provStep]
    rw [settleWith_emitted]
    intro v hv
    rcases List.mem_append.mp hv with hv | hv
    · exact h v hv
    · rcases List.mem_singleton.mp hv with rfl
      exact streamErrText_truthy m

theorem provRun_truthy (evs : List PEvent) :
    ∀ v ∈ (provRun evs).emitted, jsTruthy v = true := by
  have main : ∀ (evs : List PEvent) (st : DecSt),
      (∀ v ∈ st.emitted, jsTruthy v = true) →
      ∀ v ∈ (evs.foldl provStep st).emitted, jsTruthy v = true := by
    intro evs
    induction evs with
    | nil => exact fun st h => h
    | cons e rest ih => exact fun st h => ih (provStep st e) (provStep_truthy e h)
  exact main evs initSt (by simp [initSt])

/-- C10: no empty emissions.  Each record line either emits nothing or emits
exactly one truthy value (so a record whose extracted content is absent or
the empty string emits nothing); every value a provider run delivers to the
sink is truthy, and in particular the empty string is never delivered.  The
same per-record property holds for the legacy service's record loop. -/
theorem no_empty_emission :
    (∀ (line : List Char) (st : DecSt),
        (processLine line st).1.emitted = st.emitted ∨
        ∃ c, (processLine line st).1.emitted = st.emitted ++ [c] ∧
          jsTruthy c = true) ∧
    (∀ evs : List PEvent, ∀ v ∈ (provRun evs).emitted, jsTruthy v = true) ∧
    (∀ evs : List PEvent, Json.str [] ∉ (provRun evs).emitted) ∧
    (∀ (line : List Char) (st : DecSt),
        (legacyLine line st).1.emitted = st.emitted ∨
        ∃ c, (legacyLine line st).1.emitted = st.emitted ++ [c] ∧
          jsTruthy c = true) := by
  refine ⟨processLine_emitted_truthy, provRun_truthy, ?_, ?_⟩
  · intro evs hmem
    have := provRun_truthy evs (Json.str []) hmem
    simp [jsTruthy] at this
  · intro line st
    dsimp only [legacyLine]
    by_cases h1 : (jsTrim line).isEmpty = true
    · rw [if_pos h1]
      exact Or.inl rfl
    · rw [if_neg h1]
      by_cases h2 : recordText line = doneMark
      · rw [if_pos h2]
        exact Or.inl (settleWith_emitted st _)
      · rw [if_neg h2]
        rcases h3 : jsonParse (recordText line) with _ | data
        · exact Or.inl rfl
        · rcases h4 : jsGet data choicesKey with _ | choices
          · exact Or.inl (by simp [h4])
          · by_cases h5 : jsTruthy choices = true
            · rcases h6 : optChain (optChain (jsIndex0 choices) deltaKey)
                  contentKey with _ | c
              · exact Or.inl (by simp [h4, h5, h6, truthyO])
              · by_cases h7 : jsTruthy c = true
                · exact Or.inr ⟨c, by simp [h4, h5, h6, truthyO, h7], h7⟩
                · exact Or.inl (by simp [h4, h5, h6, truthyO, h7])
            · exact Or.inl (by simp [h4, h5])

/-- Witness for C10 at a concrete run and concrete record lines. -/
theorem no_empty_emission_w :
    jsTruthy (Json.str "Hel".data) = true ∧
    Json.str [] ∉ (provRun [PEvent.dataEv false (helRecord ++ ['\n'])]).emitted :=
  ⟨no_empty_emission.2.1 [PEvent.dataEv false (helRecord ++ ['\n'])]
      (Json.str "Hel".data) (List.mem_cons_self _ _),
   no_empty_emission.2.2.1 [PEvent.dataEv false (helRecord ++ ['\n'])]⟩
